import Mathlib

/-!
Shallow embedding of the `stdio-utils` crate (src/src/lib.rs and
src/src/main.rs): a library that sums integers read from a stream of
lines, with structured error handling.

Modelling conventions:
* Rust `isize` is modelled as a 64-bit two's-complement machine integer:
  values are `Int` and additions wrap into `[-2^63, 2^63 - 1]`
  (release-mode Rust wraparound semantics).
* Rust `&str` / `String` are Lean `String`; iterators are Lean lists.
* `Result<T, E>` is `Except E T`; `std::io::Error` is modelled as its
  message string (the library never inspects it, only wraps it).
* `str::trim` removes leading/trailing chars with the Unicode
  `White_Space` property (Rust `char::is_whitespace`).
* `isize::from_str` (radix 10) is modelled digit loop by digit loop,
  including the checked-overflow behaviour producing
  `PosOverflow`/`NegOverflow` parse-error kinds.
-/

namespace StdioUtils

/-! ### Machine integers (`isize`, 64-bit) -/

/-- Largest `isize` value, `isize::MAX = 2^63 - 1`. -/
def MAX : Int := 2 ^ 63 - 1

/-- Smallest `isize` value, `isize::MIN = -2^63`. -/
def MIN : Int := -(2 ^ 63)

/-- Reduce an integer into the `isize` range by two's-complement
wraparound. -/
def wrap (x : Int) : Int := (x + 2 ^ 63) % 2 ^ 64 - 2 ^ 63

/-- Machine addition of two `isize` values (release-mode wrapping `+`). -/
def iadd (a b : Int) : Int := wrap (a + b)

/-- `x` is representable as an `isize`. -/
def InRange (x : Int) : Prop := MIN ≤ x ∧ x ≤ MAX

instance (x : Int) : Decidable (InRange x) := by
  unfold InRange; infer_instance

/-! ### Whitespace and `str::trim` -/

/-- The code points of Rust `char::is_whitespace`
(Unicode `White_Space`). -/
def rustWhitespaceCodes : List Nat :=
  [0x09, 0x0A, 0x0B, 0x0C, 0x0D, 0x20, 0x85, 0xA0, 0x1680,
   0x2000, 0x2001, 0x2002, 0x2003, 0x2004, 0x2005, 0x2006, 0x2007,
   0x2008, 0x2009, 0x200A, 0x2028, 0x2029, 0x202F, 0x205F, 0x3000]

/-- Rust `char::is_whitespace`. -/
def isRustWhitespace (c : Char) : Bool :=
  rustWhitespaceCodes.contains c.toNat

/-- Drop leading whitespace (`str::trim_start`). -/
def trimLeft (l : List Char) : List Char :=
  l.dropWhile isRustWhitespace

/-- Drop trailing whitespace (`str::trim_end`). -/
def trimRight (l : List Char) : List Char :=
  (l.reverse.dropWhile isRustWhitespace).reverse

/-- Rust `str::trim` on a character list. -/
def trimChars (l : List Char) : List Char := trimRight (trimLeft l)

/-- Rust `str::trim`. -/
def trim (s : String) : String := ⟨trimChars s.data⟩

/-! ### `isize::from_str` (radix 10) -/

/-- The kinds of `std::num::ParseIntError` reachable from
`isize::from_str`. -/
inductive IntErrorKind where
  | empty
  | invalidDigit
  | posOverflow
  | negOverflow
deriving DecidableEq

/-- Is `c` an ASCII decimal digit (`char::to_digit(10)` succeeds)? -/
def isDigitChar (c : Char) : Bool := 48 ≤ c.toNat && c.toNat ≤ 57

/-- Rust `char::to_digit(10)`: the numeric value of a decimal digit. -/
def digitVal (c : Char) : Option Nat :=
  if isDigitChar c then some (c.toNat - 48) else none

/-- The positive digit loop of `from_str_radix`: for each digit,
`checked_mul` by 10 then `checked_add` the digit, failing with
`PosOverflow` when the result would exceed `isize::MAX`. -/
def parsePos (acc : Int) : List Char → Except IntErrorKind Int
  | [] => .ok acc
  | c :: cs =>
    match digitVal c with
    | none => .error .invalidDigit
    | some d =>
      if MAX < acc * 10 then .error .posOverflow
      else if MAX < acc * 10 + d then .error .posOverflow
      else parsePos (acc * 10 + d) cs

/-- The negative digit loop of `from_str_radix`: for each digit,
`checked_mul` by 10 then `checked_sub` the digit, failing with
`NegOverflow` when the result would fall below `isize::MIN`. -/
def parseNeg (acc : Int) : List Char → Except IntErrorKind Int
  | [] => .ok acc
  | c :: cs =>
    match digitVal c with
    | none => .error .invalidDigit
    | some d =>
      if acc * 10 < MIN then .error .negOverflow
      else if acc * 10 - d < MIN then .error .negOverflow
      else parseNeg (acc * 10 - d) cs

/-- Rust `isize::from_str` (i.e. `from_str_radix(src, 10)`): empty input
is rejected, an optional leading sign is stripped (a lone sign is an
error), and the digits are accumulated with overflow checking. -/
def fromStrRadix10 (s : List Char) : Except IntErrorKind Int :=
  match s with
  | [] => .error .empty
  | c :: rest =>
    if c = '+' then
      if rest = [] then .error .invalidDigit else parsePos 0 rest
    else if c = '-' then
      if rest = [] then .error .invalidDigit else parseNeg 0 rest
    else parsePos 0 (c :: rest)

/-! ### The library: error type, `as_number`, `sum`, `sum_strings` -/

/-- `std::io::Error`, modelled by its display message (the library only
wraps and renders it). -/
abbrev IoError := String

/-- The crate's `Error` enum (lib.rs lines 38-52). -/
inductive Error where
  /-- Returned when reading the input fails. -/
  | InputError (source : IoError)
  /-- Returned when parsing input text as number fails; retains the
  offending input text. -/
  | ParsingError (input : String) (source : IntErrorKind)
deriving DecidableEq

/-- The `thiserror`-derived `Display` of `Error`: `"Could not read
input"`, resp. `"Could not parse \"{input}\" to number"`. -/
def display : Error → String
  | .InputError _ => "Could not read input"
  | .ParsingError input _ =>
      "Could not parse \"" ++ input ++ "\" to number"

/-- `as_number` (lib.rs lines 126-137): trim the line, parse the trimmed
text, and on failure build a `ParsingError` carrying the original
(untrimmed) line. -/
def as_number (line : String) : Except Error Int :=
  match fromStrRadix10 (trim line).data with
  | .ok n => .ok n
  | .error source => .error (.ParsingError line source)

/-- The closure of `read` (lib.rs line 123): wrap an I/O failure as
`Error::InputError`, pass strings through. -/
def readItem : Except IoError String → Except Error String
  | .ok s => .ok s
  | .error e => .error (.InputError e)

/-- `read` (lib.rs lines 118-124). -/
def read (lines : List (Except IoError String)) :
    List (Except Error String) :=
  lines.map readItem

/-- The closure `|line| as_number(line?)` of `sum` (lib.rs line 115):
propagate a failure, otherwise parse the line. -/
def lineToNumber : Except Error String → Except Error Int
  | .ok s => as_number s
  | .error e => .error e

/-- `Iterator::sum` on `Result<isize, Error>` items: accumulate with
machine addition, short-circuiting on the first failure. -/
def resultSum (acc : Int) : List (Except Error Int) → Except Error Int
  | [] => .ok acc
  | .ok n :: rest => resultSum (iadd acc n) rest
  | .error e :: _ => .error e

/-- `sum` (lib.rs lines 110-116):
`read(lines).map(|line| as_number(line?)).sum()`. -/
def sum (lines : List (Except IoError String)) : Except Error Int :=
  resultSum 0 ((read lines).map lineToNumber)

/-- `sum_strings` (lib.rs lines 76-81): `sum(strings.map(Ok))`. -/
def sum_strings (strings : List String) : Except Error Int :=
  sum (strings.map .ok)

/-- The outcome of one item of the stream fed to `.sum()`:
`lineToNumber ∘ readItem`. -/
def itemResult (i : Except IoError String) : Except Error Int :=
  lineToNumber (readItem i)

/-! ### Specification helpers: numeral values and syntax -/

/-- The numeric value of a decimal digit character, as an integer
(meaningful when `isDigitChar c`). -/
def dval (c : Char) : Int := ((c.toNat - 48 : Nat) : Int)

/-- The value accumulated by the positive digit loop, ignoring overflow:
`foldl (fun a c => a * 10 + dval c) acc ds`. -/
def pval (acc : Int) (ds : List Char) : Int :=
  ds.foldl (fun a c => a * 10 + dval c) acc

/-- The value accumulated by the negative digit loop, ignoring overflow:
`foldl (fun a c => a * 10 - dval c) acc ds`. -/
def pnval (acc : Int) (ds : List Char) : Int :=
  ds.foldl (fun a c => a * 10 - dval c) acc

/-- Split an optional leading sign from a numeral: `true` means
non-negative. Mirrors the sign-stripping of `from_str_radix`. -/
def stripSign (s : List Char) : Bool × List Char :=
  match s with
  | [] => (true, [])
  | c :: rest =>
    if c = '+' then (true, rest)
    else if c = '-' then (false, rest)
    else (true, c :: rest)

/-- Syntactic validity of an optionally-signed base-10 numeral: after
stripping an optional sign there is at least one character and every
character is a decimal digit. -/
def validNumeral (cs : List Char) : Bool :=
  !(stripSign cs).2.isEmpty && (stripSign cs).2.all isDigitChar

/-- The mathematical (unbounded) value of a syntactically valid
optionally-signed base-10 numeral. -/
def numeralVal (cs : List Char) : Int :=
  if (stripSign cs).1 then pval 0 (stripSign cs).2
  else -(pval 0 (stripSign cs).2)

/-! ### The executable (`main.rs`) -/

/-- The digit character for `r` (`b'0' + r` in Rust's integer
formatting). -/
def digitChar (r : Nat) : Char := Char.ofNat (48 + r)

/-- The decimal digits of `n`, most significant first, accumulated onto
`acc` (the digit loop of Rust's integer `Display`). -/
def natDigitsAux (n : Nat) (acc : List Char) : List Char :=
  if n < 10 then digitChar (n % 10) :: acc
  else natDigitsAux (n / 10) (digitChar (n % 10) :: acc)
termination_by n
decreasing_by omega

/-- The decimal digits of `n`, most significant first. -/
def natDigits (n : Nat) : List Char := natDigitsAux n []

/-- Rust's `Display` for `isize` as used by `println!("{}", sum)`: a minus
sign for negative values followed by the decimal digits of the absolute
value. -/
def intDisplay (i : Int) : String :=
  if i < 0 then ⟨'-' :: natDigits i.natAbs⟩ else ⟨natDigits i.toNat⟩

/-- The externally observable outcome of one run of the executable. -/
structure ProcessOutcome where
  stdout : List String
  stderr : List String
  exitCode : Nat
deriving DecidableEq

/-- `main` (main.rs lines 4-20): run `sum` on the input lines; on an
input-source failure or a parse failure print a diagnostic line to the
error stream and exit with status 1 (printing no output line);
otherwise print the decimal sum as a single output line. The
executable's `ApplicationError` is the library's `Error` (main.rs pairs
with a sibling evolution of the library in which the error enum carries
that name; the two variants match the two variants of `Error`). -/
def main (lines : List (Except IoError String)) : ProcessOutcome :=
  match sum lines with
  | .error (.InputError e) =>
      ⟨[], ["I/O error reading from stdin: " ++ e], 1⟩
  | .error (.ParsingError input source) =>
      ⟨[], ["Bad input data: " ++ display (.ParsingError input source)], 1⟩
  | .ok n => ⟨[intDisplay n], [], 0⟩

instance {ε α : Type _} [DecidableEq ε] [DecidableEq α] :
    DecidableEq (Except ε α) := fun
  | .ok a, .ok b =>
    match decEq a b with
    | isTrue h => isTrue (h ▸ rfl)
    | isFalse h => isFalse fun hh => h (Except.ok.inj hh)
  | .error a, .error b =>
    match decEq a b with
    | isTrue h => isTrue (h ▸ rfl)
    | isFalse h => isFalse fun hh => h (Except.error.inj hh)
  | .ok _, .error _ => isFalse fun hh => Except.noConfusion hh
  | .error _, .ok _ => isFalse fun hh => Except.noConfusion hh

/-! ### Arithmetic of wrapping -/

theorem wrap_inRange (x : Int) : InRange (wrap x) := by
  unfold InRange wrap MIN MAX
  constructor <;> omega

theorem wrap_eq_self {x : Int} (h : InRange x) : wrap x = x := by
  unfold InRange MIN MAX at h
  unfold wrap
  omega

theorem wrap_add_wrap_left (x y : Int) : wrap (wrap x + y) = wrap (x + y) := by
  unfold wrap
  omega

theorem wrap_add_wrap_right (x y : Int) :
    wrap (x + wrap y) = wrap (x + y) := by
  unfold wrap
  omega

/-! ### `resultSum` lemmas -/

theorem resultSum_map_ok (ns : List Int) (acc : Int) (h : InRange acc) :
    resultSum acc (ns.map .ok) = .ok (wrap (acc + ns.sum)) := by
  induction ns generalizing acc with
  | nil => simp [resultSum, wrap_eq_self h]
  | cons n ns ih =>
    simp only [List.map_cons, resultSum, List.sum_cons]
    rw [ih (iadd acc n) (wrap_inRange _)]
    unfold iadd
    rw [wrap_add_wrap_left]
    rw [← Int.add_assoc]

theorem resultSum_ok_inRange {l : List (Except Error Int)} {acc r : Int}
    (h : resultSum acc l = .ok r) (hacc : InRange acc) : InRange r := by
  induction l generalizing acc with
  | nil =>
    unfold resultSum at h
    cases h
    exact hacc
  | cons i l ih =>
    match i with
    | .ok n =>
      unfold resultSum at h
      exact ih h (wrap_inRange _)
    | .error e =>
      unfold resultSum at h
      cases h

theorem resultSum_append (l₁ l₂ : List (Except Error Int)) (acc : Int) :
    resultSum acc (l₁ ++ l₂) =
      match resultSum acc l₁ with
      | .ok a => resultSum a l₂
      | .error e => .error e := by
  induction l₁ generalizing acc with
  | nil => simp [resultSum]
  | cons i l ih =>
    match i with
    | .ok n => simp only [List.cons_append, resultSum]; exact ih _
    | .error e => simp [resultSum]

theorem resultSum_ok_all_ok {l : List (Except Error Int)} {acc r : Int}
    (h : resultSum acc l = .ok r) : ∃ ns : List Int, l = ns.map .ok := by
  induction l generalizing acc with
  | nil => exact ⟨[], rfl⟩
  | cons i l ih =>
    match i with
    | .ok n =>
      unfold resultSum at h
      obtain ⟨ns, hns⟩ := ih h
      exact ⟨n :: ns, by rw [List.map_cons, hns]⟩
    | .error e =>
      unfold resultSum at h
      cases h

/-! ### Rewriting `sum` and `sum_strings` as folds over mapped items -/

theorem sum_eq_resultSum_items (lines : List (Except IoError String)) :
    sum lines = resultSum 0 (lines.map itemResult) := by
  unfold sum read
  rw [List.map_map]
  rfl

theorem sum_strings_eq_resultSum (ss : List String) :
    sum_strings ss = resultSum 0 (ss.map as_number) := by
  unfold sum_strings
  rw [sum_eq_resultSum_items, List.map_map]
  rfl

theorem sum_ok_inRange {lines : List (Except IoError String)} {n : Int}
    (h : sum lines = .ok n) : InRange n := by
  rw [sum_eq_resultSum_items] at h
  exact resultSum_ok_inRange h (by constructor <;> decide)

/-- C7: the empty sequence sums to zero: both `sum` and `sum_strings`
return `Ok(0)` on an empty stream. -/
theorem sum_empty_eq_zero :
    sum [] = .ok 0 ∧ sum_strings [] = .ok 0 :=
  ⟨rfl, rfl⟩

/-- C5: `sum_strings` is exactly the thin adapter `sum(strings.map(Ok))`,
with no summation logic of its own. -/
theorem sum_strings_eq_sum_map_ok (ss : List String) :
    sum_strings ss = sum (ss.map .ok) :=
  rfl

/-! ### Whitespace and trimming lemmas -/

theorem dropWhile_append_of_forall {p : Char → Bool} {w l : List Char}
    (h : ∀ c ∈ w, p c = true) :
    (w ++ l).dropWhile p = l.dropWhile p := by
  induction w with
  | nil => rfl
  | cons a w ih =>
    rw [List.cons_append, List.dropWhile_cons, h a (List.mem_cons_self a w)]
    simp only [if_true]
    exact ih fun c hc => h c (List.mem_cons_of_mem a hc)

theorem dropWhile_eq_nil_of_forall {p : Char → Bool} {w : List Char}
    (h : ∀ c ∈ w, p c = true) : w.dropWhile p = [] := by
  induction w with
  | nil => rfl
  | cons a w ih =>
    rw [List.dropWhile_cons, h a (List.mem_cons_self a w)]
    simp only [if_true]
    exact ih fun c hc => h c (List.mem_cons_of_mem a hc)

theorem trimLeft_ws_append {w l : List Char}
    (hw : ∀ c ∈ w, isRustWhitespace c = true) :
    trimLeft (w ++ l) = trimLeft l :=
  dropWhile_append_of_forall hw

theorem trimLeft_append_all_ws (l w : List Char)
    (hw : ∀ c ∈ w, isRustWhitespace c = true) :
    trimLeft (l ++ w) = if trimLeft l = [] then [] else trimLeft l ++ w := by
  induction l with
  | nil =>
    simp only [List.nil_append, trimLeft, List.dropWhile_nil, if_pos]
    exact dropWhile_eq_nil_of_forall hw
  | cons a l ih =>
    by_cases hpa : isRustWhitespace a = true
    · rw [List.cons_append]
      unfold trimLeft at ih ⊢
      rw [List.dropWhile_cons, List.dropWhile_cons, hpa]
      simp only [if_true]
      exact ih
    · have hpa' : isRustWhitespace a = false := by
        cases h : isRustWhitespace a
        · rfl
        · exact absurd h hpa
      rw [List.cons_append]
      unfold trimLeft
      rw [List.dropWhile_cons, List.dropWhile_cons, hpa']
      simp only [Bool.false_eq_true, if_false]
      rw [if_neg (List.cons_ne_nil a l), List.cons_append]

theorem trimRight_append_all_ws (l w : List Char)
    (hw : ∀ c ∈ w, isRustWhitespace c = true) :
    trimRight (l ++ w) = trimRight l := by
  unfold trimRight
  rw [List.reverse_append,
    dropWhile_append_of_forall fun c hc => hw c (List.mem_reverse.mp hc)]

theorem trimChars_pad (s w1 w2 : List Char)
    (h1 : ∀ c ∈ w1, isRustWhitespace c = true)
    (h2 : ∀ c ∈ w2, isRustWhitespace c = true) :
    trimChars (w1 ++ s ++ w2) = trimChars s := by
  unfold trimChars
  rw [List.append_assoc, trimLeft_ws_append h1, trimLeft_append_all_ws s w2 h2]
  by_cases h : trimLeft s = []
  · rw [if_pos h, h]
  · rw [if_neg h, trimRight_append_all_ws _ _ h2]

theorem trim_pad (s t : String) (w1 w2 : List Char)
    (h1 : ∀ c ∈ w1, isRustWhitespace c = true)
    (h2 : ∀ c ∈ w2, isRustWhitespace c = true)
    (ht : t.data = w1 ++ s.data ++ w2) : trim t = trim s := by
  unfold trim
  rw [ht, trimChars_pad _ _ _ h1 h2]

/-! ### `as_number` lemmas -/

theorem as_number_eq_ok {s : String} {n : Int} :
    as_number s = .ok n ↔ fromStrRadix10 (trim s).data = .ok n := by
  unfold as_number
  cases h : fromStrRadix10 (trim s).data with
  | ok m => simp
  | error k => simp

theorem as_number_ok_congr {s t : String} {n : Int} (h : trim t = trim s)
    (hs : as_number s = .ok n) : as_number t = .ok n := by
  rw [as_number_eq_ok, h, ← as_number_eq_ok]
  exact hs

theorem map_as_number_of_forall₂ {ss : List String} {ns : List Int}
    (h : List.Forall₂ (fun s n => as_number s = .ok n) ss ns) :
    ss.map as_number = ns.map .ok := by
  induction h with
  | nil => rfl
  | cons hab _ ih => simp only [List.map_cons, hab, ih]

theorem forall₂_ok_of_trim_eq {ss ts : List String} {ns : List Int}
    (h : List.Forall₂ (fun s n => as_number s = .ok n) ss ns)
    (hpad : List.Forall₂ (fun s t => trim t = trim s) ss ts) :
    List.Forall₂ (fun t n => as_number t = .ok n) ts ns := by
  induction h generalizing ts with
  | nil => cases hpad; exact .nil
  | cons hab htl ih =>
    cases hpad with
    | cons hpt hptl => exact .cons (as_number_ok_congr hpt hab) (ih hptl)

/-- C1 (amended): for sequences of valid decimal-integer lines,
`sum_strings` returns `Ok` of the arithmetic sum reduced into the
64-bit signed range by two's-complement wraparound; it equals the exact
arithmetic sum whenever that sum is representable as an `isize`; and the
result is unchanged by adding or removing leading/trailing whitespace on
any line. -/
theorem sum_strings_valid_spec (ss ts : List String) (ns : List Int)
    (h : List.Forall₂ (fun s n => as_number s = .ok n) ss ns)
    (hpad : List.Forall₂ (fun s t =>
      ∃ w1 w2, (∀ c ∈ w1, isRustWhitespace c = true) ∧
        (∀ c ∈ w2, isRustWhitespace c = true) ∧
        t.data = w1 ++ s.data ++ w2) ss ts) :
    sum_strings ss = .ok (wrap ns.sum)
    ∧ (InRange ns.sum → sum_strings ss = .ok ns.sum)
    ∧ sum_strings ts = sum_strings ss := by
  have key : ∀ l : List String, l.map as_number = ns.map .ok →
      sum_strings l = .ok (wrap ns.sum) := by
    intro l hl
    rw [sum_strings_eq_resultSum, hl,
      resultSum_map_ok ns 0 (by constructor <;> decide), Int.zero_add]
  refine ⟨key ss (map_as_number_of_forall₂ h), fun hin => ?_, ?_⟩
  · rw [key ss (map_as_number_of_forall₂ h), wrap_eq_self hin]
  · have hpad' : List.Forall₂ (fun s t => trim t = trim s) ss ts := by
      refine hpad.imp ?_
      intro s t hst
      obtain ⟨w1, w2, hw1, hw2, hdata⟩ := hst
      exact trim_pad s t w1 w2 hw1 hw2 hdata
    rw [key ts (map_as_number_of_forall₂ (forall₂_ok_of_trim_eq h hpad')),
      key ss (map_as_number_of_forall₂ h)]

/-- C1 (counterexample): two lines that each parse as valid `isize`
values but whose arithmetic sum exceeds `isize::MAX`: the code returns
the wrapped-around value, not the arithmetic sum. -/
theorem sum_strings_overflow_counterexample :
    as_number "9223372036854775807" = .ok (2 ^ 63 - 1)
    ∧ as_number "1" = .ok 1
    ∧ sum_strings ["9223372036854775807", "1"] = .ok (-(2 ^ 63))
    ∧ sum_strings ["9223372036854775807", "1"] ≠ .ok ((2 ^ 63 - 1) + 1) := by
  refine ⟨by decide, by decide, by decide, ?_⟩
  intro h
  have := h.symm.trans (by decide : sum_strings ["9223372036854775807", "1"]
    = .ok (-(2 ^ 63)))
  cases this

/-- C1 (witness): instantiation of the amended claim on the concrete
streams `["20", "22"]` and its whitespace-padded variant
`[" 20", "22\t"]`. -/
theorem sum_strings_valid_spec_witness :
    sum_strings ["20", "22"] = .ok 42
    ∧ sum_strings [" 20", "22\t"] = .ok 42 := by
  have h := sum_strings_valid_spec ["20", "22"] [" 20", "22\t"] [20, 22]
    (.cons (by decide) (.cons (by decide) .nil))
    (.cons ⟨[' '], [], by decide, by decide, by decide⟩
      (.cons ⟨[], ['\t'], by decide, by decide, by decide⟩ .nil))
  have h1 : sum_strings ["20", "22"] = .ok 42 := by
    have := h.2.1 (by constructor <;> decide)
    simpa using this
  exact ⟨h1, h.2.2.trans h1⟩

/-! ### Short-circuiting at the first failing item -/

theorem resultSum_items_all_valid {pre : List (Except IoError String)}
    (hpre : ∀ i ∈ pre, ∃ n, itemResult i = .ok n) :
    ∀ (rest : List (Except Error Int)) (acc : Int),
    ∃ acc', resultSum acc (pre.map itemResult ++ rest) = resultSum acc' rest := by
  induction pre with
  | nil => exact fun rest acc => ⟨acc, rfl⟩
  | cons i pre ih =>
    intro rest acc
    obtain ⟨n, hn⟩ := hpre i (List.mem_cons_self i pre)
    rw [List.map_cons, List.cons_append, hn]
    simp only [resultSum]
    exact ih (fun j hj => hpre j (List.mem_cons_of_mem i hj)) rest (iadd acc n)

/-- C2: `sum` halts at the first failing item and returns the
corresponding error, whatever the suffix: an `Err` element at any
position after a prefix of valid lines propagates as `InputError`, and
the result does not depend on the items after the failing one. -/
theorem sum_halts_at_first_failure (pre suf : List (Except IoError String))
    (item : Except IoError String) (e : Error) (io : IoError)
    (hpre : ∀ i ∈ pre, ∃ n, itemResult i = .ok n)
    (hfail : itemResult item = .error e) :
    sum (pre ++ item :: suf) = .error e
    ∧ sum (pre ++ .error io :: suf) = .error (.InputError io) := by
  have general : ∀ (it : Except IoError String) (er : Error),
      itemResult it = .error er → sum (pre ++ it :: suf) = .error er := by
    intro it er hit
    rw [sum_eq_resultSum_items, List.map_append]
    obtain ⟨acc', hacc⟩ :=
      resultSum_items_all_valid hpre ((it :: suf).map itemResult) 0
    rw [hacc, List.map_cons, hit]
    simp only [resultSum]
  exact ⟨general item e hfail, general (.error io) (.InputError io) rfl⟩

/-- C2 (witness): an `Err` element after one valid line propagates as
`InputError` and the trailing items are ignored; a non-numeric line
likewise halts with its `ParsingError`. -/
theorem sum_halts_at_first_failure_witness :
    sum [.ok "1", .error "Mock Error", .ok "oops"]
      = .error (.InputError "Mock Error")
    ∧ sum [.ok "1", .ok "x", .ok "2"]
      = .error (.ParsingError "x" .invalidDigit) := by
  have hpre : ∀ i ∈ [Except.ok "1"], ∃ n, itemResult i = .ok n := by
    intro i hi
    rw [List.mem_singleton] at hi
    subst hi
    exact ⟨1, by decide⟩
  exact ⟨(sum_halts_at_first_failure [.ok "1"] [.ok "oops"]
      (.error "Mock Error") (.InputError "Mock Error") "Mock Error"
      hpre (by decide)).1,
    (sum_halts_at_first_failure [.ok "1"] [.ok "2"]
      (.ok "x") (.ParsingError "x" .invalidDigit) "unused"
      hpre (by decide)).1⟩

/-! ### Diagnostic rendering -/

/-- C3: a `ParsingError` raised for offending text `T` renders to a
diagnostic string containing `T` verbatim, and for the empty input text
the rendered diagnostic contains no hardcoded placeholder character such
as `$`. -/
theorem parsing_error_display_contains_input (s : String) (err : Error)
    (h : as_number s = .error err) :
    s.data <:+: (display err).data
    ∧ sum_strings [s] = .error err
    ∧ (s = "" → ('$' : Char) ∉ (display err).data) := by
  have hform : ∃ k, err = .ParsingError s k := by
    unfold as_number at h
    cases hp : fromStrRadix10 (trim s).data with
    | ok m => rw [hp] at h; cases h
    | error k => rw [hp] at h; cases h; exact ⟨k, rfl⟩
  obtain ⟨k, rfl⟩ := hform
  refine ⟨?_, ?_, ?_⟩
  · unfold display
    refine ⟨("Could not parse \"").data, ("\" to number").data, ?_⟩
    rw [String.data_append, String.data_append]
  · rw [sum_strings_eq_resultSum, List.map_singleton, h]
    simp only [resultSum]
  · intro hs
    subst hs
    simp only [display]
    decide

/-- C3 (witness): the rendered diagnostic for the unparsable empty line
contains the empty offending text (trivially) and no `$` placeholder;
the diagnostic for `"$"` contains `"$"`. -/
theorem parsing_error_display_witness :
    ('$' : Char) ∉ (display (.ParsingError "" .empty)).data
    ∧ ("$").data <:+: (display (.ParsingError "$" .invalidDigit)).data := by
  exact ⟨(parsing_error_display_contains_input "" (.ParsingError "" .empty)
      (by decide)).2.2 rfl,
    (parsing_error_display_contains_input "$" (.ParsingError "$" .invalidDigit)
      (by decide)).1⟩

/-! ### Lines that are empty after trimming -/

/-- C4: a line that is empty after trimming (the empty string or a
whitespace-only string) makes `sum_strings` fail with a `ParsingError`
(of kind `Empty`) carrying that line; it is never treated as zero. -/
theorem empty_after_trim_is_parsing_error (s : String) (h : trim s = "") :
    as_number s = .error (.ParsingError s .empty)
    ∧ sum_strings [s] = .error (.ParsingError s .empty) := by
  have hdata : (trim s).data = [] := by rw [h]
  have ha : as_number s = .error (.ParsingError s .empty) := by
    unfold as_number
    rw [hdata]
    rfl
  refine ⟨ha, ?_⟩
  rw [sum_strings_eq_resultSum, List.map_singleton, ha]
  simp only [resultSum]

/-- C4 (witness): the whitespace-only line `" \t "` trims to the empty
string and is rejected with a `ParsingError`, not summed as zero. -/
theorem empty_after_trim_witness :
    sum_strings [" \t "] = .error (.ParsingError " \t " .empty) :=
  (empty_after_trim_is_parsing_error " \t " (by decide)).2

/-! ### The stored offending text is the untrimmed line -/

theorem as_number_parse_fail {s : String} {k : IntErrorKind}
    (h : fromStrRadix10 (trim s).data = .error k) :
    as_number s = .error (.ParsingError s k)
    ∧ sum_strings [s] = .error (.ParsingError s k) := by
  have ha : as_number s = .error (.ParsingError s k) := by
    unfold as_number
    rw [h]
  refine ⟨ha, ?_⟩
  rw [sum_strings_eq_resultSum, List.map_singleton, ha]
  simp only [resultSum]

/-- C8: when a line fails to parse, the resulting `ParsingError` stores
the original untrimmed line text, not the trimmed text that was passed
to the integer parser. -/
theorem parsing_error_stores_untrimmed (s : String) (k : IntErrorKind)
    (h : fromStrRadix10 (trim s).data = .error k) :
    as_number s = .error (.ParsingError s k)
    ∧ sum_strings [s] = .error (.ParsingError s k) :=
  as_number_parse_fail h

/-- C8 (witness): `sum_strings ["\t x\n"]` yields a `ParsingError` whose
stored input is the untrimmed `"\t x\n"`, though only `"x"` was parsed. -/
theorem parsing_error_stores_untrimmed_witness :
    sum_strings ["\t x\n"] = .error (.ParsingError "\t x\n" .invalidDigit) :=
  (parsing_error_stores_untrimmed "\t x\n" .invalidDigit (by decide)).2

/-! ### The digit loops compute numeral values, with overflow checks -/

theorem dval_nonneg (c : Char) : 0 ≤ dval c := Int.ofNat_nonneg _

theorem pval_cons (acc : Int) (c : Char) (cs : List Char) :
    pval acc (c :: cs) = pval (acc * 10 + dval c) cs := rfl

theorem pnval_cons (acc : Int) (c : Char) (cs : List Char) :
    pnval acc (c :: cs) = pnval (acc * 10 - dval c) cs := rfl

theorem pval_ge {acc : Int} (ds : List Char) (h : 0 ≤ acc) :
    acc ≤ pval acc ds := by
  induction ds generalizing acc with
  | nil => exact le_refl acc
  | cons c cs ih =>
    rw [pval_cons]
    have hd := dval_nonneg c
    have h2 := ih (show 0 ≤ acc * 10 + dval c by omega)
    omega

theorem pnval_le {acc : Int} (ds : List Char) (h : acc ≤ 0) :
    pnval acc ds ≤ acc := by
  induction ds generalizing acc with
  | nil => exact le_refl acc
  | cons c cs ih =>
    rw [pnval_cons]
    have hd := dval_nonneg c
    have h2 := ih (show acc * 10 - dval c ≤ 0 by omega)
    omega

theorem pnval_eq_neg_pval (ds : List Char) (acc : Int) :
    pnval acc ds = -(pval (-acc) ds) := by
  induction ds generalizing acc with
  | nil => simp [pval, pnval]
  | cons c cs ih =>
    rw [pnval_cons, pval_cons, ih]
    have harg : -(acc * 10 - dval c) = -acc * 10 + dval c := by ring
    rw [harg]

theorem digitVal_of_digit {c : Char} (h : isDigitChar c = true) :
    digitVal c = some (c.toNat - 48) := by
  simp [digitVal, h]

theorem parsePos_spec {ds : List Char} {acc : Int}
    (hd : ∀ c ∈ ds, isDigitChar c = true) (h0 : 0 ≤ acc) (h1 : acc ≤ MAX) :
    parsePos acc ds =
      if pval acc ds ≤ MAX then .ok (pval acc ds)
      else .error .posOverflow := by
  induction ds generalizing acc with
  | nil =>
    simp only [pval, List.foldl_nil]
    rw [if_pos h1]
    rfl
  | cons c cs ih =>
    have hc : isDigitChar c = true := hd c (List.mem_cons_self c cs)
    simp only [parsePos, digitVal_of_digit hc]
    have hcast : ((c.toNat - 48 : Nat) : Int) = dval c := rfl
    rw [hcast]
    have hdval := dval_nonneg c
    have hpv := pval_cons acc c cs
    by_cases hA : MAX < acc * 10
    · rw [if_pos hA]
      have hgt : MAX < pval acc (c :: cs) := by
        rw [hpv]
        have := pval_ge cs (show 0 ≤ acc * 10 + dval c by omega)
        omega
      rw [if_neg (by omega)]
    · rw [if_neg hA]
      by_cases hB : MAX < acc * 10 + dval c
      · rw [if_pos hB]
        have hgt : MAX < pval acc (c :: cs) := by
          rw [hpv]
          have := pval_ge cs (show 0 ≤ acc * 10 + dval c by omega)
          omega
        rw [if_neg (by omega)]
      · rw [if_neg hB, hpv]
        exact ih (fun x hx => hd x (List.mem_cons_of_mem c hx))
          (by omega) (by omega)

theorem parseNeg_spec {ds : List Char} {acc : Int}
    (hd : ∀ c ∈ ds, isDigitChar c = true) (h0 : acc ≤ 0) (h1 : MIN ≤ acc) :
    parseNeg acc ds =
      if MIN ≤ pnval acc ds then .ok (pnval acc ds)
      else .error .negOverflow := by
  induction ds generalizing acc with
  | nil =>
    simp only [pnval, List.foldl_nil]
    rw [if_pos h1]
    rfl
  | cons c cs ih =>
    have hc : isDigitChar c = true := hd c (List.mem_cons_self c cs)
    simp only [parseNeg, digitVal_of_digit hc]
    have hcast : ((c.toNat - 48 : Nat) : Int) = dval c := rfl
    rw [hcast]
    have hdval := dval_nonneg c
    have hpv := pnval_cons acc c cs
    by_cases hA : acc * 10 < MIN
    · rw [if_pos hA]
      have hlt : pnval acc (c :: cs) < MIN := by
        rw [hpv]
        have := pnval_le cs (show acc * 10 - dval c ≤ 0 by omega)
        omega
      rw [if_neg (by omega)]
    · rw [if_neg hA]
      by_cases hB : acc * 10 - dval c < MIN
      · rw [if_pos hB]
        have hlt : pnval acc (c :: cs) < MIN := by
          rw [hpv]
          have := pnval_le cs (show acc * 10 - dval c ≤ 0 by omega)
          omega
        rw [if_neg (by omega)]
      · rw [if_neg hB, hpv]
        exact ih (fun x hx => hd x (List.mem_cons_of_mem c hx))
          (by omega) (by omega)

theorem fromStrRadix10_valid {cs : List Char} (hv : validNumeral cs = true) :
    fromStrRadix10 cs =
      if InRange (numeralVal cs) then .ok (numeralVal cs)
      else .error
        (if MAX < numeralVal cs then .posOverflow else .negOverflow) := by
  match cs with
  | [] => exact absurd hv (by decide)
  | c :: rest =>
    unfold validNumeral stripSign at hv
    unfold fromStrRadix10 numeralVal stripSign
    by_cases hplus : c = '+'
    · simp only [if_pos hplus] at hv ⊢
      simp only [if_true]
      obtain ⟨hne, hall⟩ := Bool.and_eq_true_iff.mp hv
      have hne' : rest ≠ [] := by
        intro hx
        rw [hx] at hne
        cases hne
      have hall' : ∀ x ∈ rest, isDigitChar x = true := by
        intro x hx
        exact List.all_eq_true.mp hall x hx
      rw [if_neg hne', parsePos_spec hall' (le_refl 0) (by unfold MAX; omega)]
      have hnn : 0 ≤ pval 0 rest := pval_ge rest (le_refl 0)
      by_cases hmx : pval 0 rest ≤ MAX
      · rw [if_pos hmx, if_pos (by unfold InRange MIN MAX at *; omega)]
      · rw [if_neg hmx,
          if_neg (show ¬ InRange (pval 0 rest) by
            unfold InRange MIN MAX at *; omega),
          if_pos (by omega)]
    · by_cases hminus : c = '-'
      · simp only [if_neg hplus, if_pos hminus] at hv ⊢
        simp only [Bool.false_eq_true, if_false]
        obtain ⟨hne, hall⟩ := Bool.and_eq_true_iff.mp hv
        have hne' : rest ≠ [] := by
          intro hx
          rw [hx] at hne
          cases hne
        have hall' : ∀ x ∈ rest, isDigitChar x = true := by
          intro x hx
          exact List.all_eq_true.mp hall x hx
        rw [if_neg hne',
          parseNeg_spec hall' (le_refl 0) (by unfold MIN; omega)]
        have hnn : 0 ≤ pval 0 rest := pval_ge rest (le_refl 0)
        rw [pnval_eq_neg_pval, Int.neg_zero]
        by_cases hmn : MIN ≤ -pval 0 rest
        · rw [if_pos hmn,
            if_pos (show InRange (-pval 0 rest) by
              unfold InRange MIN MAX at *; omega)]
        · rw [if_neg hmn,
            if_neg (show ¬ InRange (-pval 0 rest) by
              unfold InRange MIN MAX at *; omega),
            if_neg (show ¬ MAX < -pval 0 rest by
              unfold MAX at *; omega)]
      · simp only [if_neg hplus, if_neg hminus] at hv ⊢
        simp only [if_true]
        obtain ⟨hne, hall⟩ := Bool.and_eq_true_iff.mp hv
        have hall' : ∀ x ∈ c :: rest, isDigitChar x = true := by
          intro x hx
          exact List.all_eq_true.mp hall x hx
        rw [parsePos_spec hall' (le_refl 0) (by unfold MAX; omega)]
        have hnn : 0 ≤ pval 0 (c :: rest) := pval_ge _ (le_refl 0)
        by_cases hmx : pval 0 (c :: rest) ≤ MAX
        · rw [if_pos hmx,
            if_pos (show InRange (pval 0 (c :: rest)) by
              unfold InRange MIN MAX at *; omega)]
        · rw [if_neg hmx,
            if_neg (show ¬ InRange (pval 0 (c :: rest)) by
              unfold InRange MIN MAX at *; omega),
            if_pos (by omega)]

/-- C9: a line whose trimmed text is a syntactically valid
optionally-signed decimal numeral with a value outside the `isize`
range is rejected with a `ParsingError` (of an overflow kind) carrying
that line's text — never silently truncated and never an `InputError`. -/
theorem out_of_range_is_parsing_error (s : String)
    (hv : validNumeral (trim s).data = true)
    (hr : ¬ InRange (numeralVal (trim s).data)) :
    ∃ k, (k = IntErrorKind.posOverflow ∨ k = IntErrorKind.negOverflow)
    ∧ as_number s = .error (.ParsingError s k)
    ∧ sum_strings [s] = .error (.ParsingError s k) := by
  have hfp := fromStrRadix10_valid hv
  rw [if_neg hr] at hfp
  refine ⟨_, ?_, (as_number_parse_fail hfp).1, (as_number_parse_fail hfp).2⟩
  by_cases h : MAX < numeralVal (trim s).data
  · exact Or.inl (if_pos h)
  · exact Or.inr (if_neg h)

/-- C9 (witness): the 20-digit line `"99999999999999999999"` is a valid
numeral beyond `isize::MAX` and is rejected with a `PosOverflow`
parsing error that stores the line. -/
theorem out_of_range_witness :
    sum_strings ["99999999999999999999"]
      = .error (.ParsingError "99999999999999999999" .posOverflow) := by
  obtain ⟨k, hk, ha, hs⟩ := out_of_range_is_parsing_error
    "99999999999999999999" (by decide) (by decide)
  have hkk : k = IntErrorKind.posOverflow := by
    cases hk with
    | inl h => exact h
    | inr h =>
      rw [h] at ha
      exact absurd ha (by decide)
  rw [hkk] at hs
  exact hs

/-! ### Concatenation homomorphism -/

/-- C10: summation is a homomorphism over concatenation: if both halves
sum successfully, the concatenation sums to the machine
(wrapping) addition of the two partial sums. -/
theorem sum_strings_append_hom (xs ys : List String) (a b : Int)
    (hx : sum_strings xs = .ok a) (hy : sum_strings ys = .ok b) :
    sum_strings (xs ++ ys) = .ok (iadd a b) := by
  rw [sum_strings_eq_resultSum] at hx hy ⊢
  rw [List.map_append, resultSum_append, hx]
  show resultSum a (List.map as_number ys) = Except.ok (iadd a b)
  obtain ⟨ns, hns⟩ := resultSum_ok_all_ok hy
  have hinr : InRange a := resultSum_ok_inRange hx (by constructor <;> decide)
  rw [hns] at hy ⊢
  rw [resultSum_map_ok ns 0 (by constructor <;> decide)] at hy
  rw [resultSum_map_ok ns a hinr]
  have hb := Except.ok.inj hy
  subst hb
  unfold iadd
  rw [wrap_add_wrap_right, Int.zero_add]

/-- C10 (witness): `sum_strings (["1","2"] ++ ["3"]) = Ok(1+2+3)` via the
homomorphism at `a = 3`, `b = 3`. -/
theorem sum_strings_append_hom_witness :
    sum_strings (["1", "2"] ++ ["3"]) = .ok (iadd 3 3) :=
  sum_strings_append_hom ["1", "2"] ["3"] 3 3 (by decide) (by decide)

/-! ### Decimal rendering and the executable contract -/

theorem natDigitsAux_append (n : Nat) : ∀ acc, natDigitsAux n acc = natDigitsAux n [] ++ acc := by
  induction n using Nat.strong_induction_on with
  | _ n ih =>
    intro acc
    by_cases h : n < 10
    · conv_lhs => rw [natDigitsAux]
      conv_rhs => rw [natDigitsAux]
      simp only [if_pos h]
      rfl
    · conv_lhs => rw [natDigitsAux]
      conv_rhs => rw [natDigitsAux]
      simp only [if_neg h]
      rw [ih (n / 10) (by omega) (digitChar (n % 10) :: acc),
        ih (n / 10) (by omega) [digitChar (n % 10)]]
      rw [List.append_assoc]
      rfl

theorem natDigits_lt {n : Nat} (h : n < 10) :
    natDigits n = [digitChar (n % 10)] := by
  unfold natDigits
  rw [natDigitsAux, if_pos h]

theorem natDigits_step {n : Nat} (h : ¬ n < 10) :
    natDigits n = natDigits (n / 10) ++ [digitChar (n % 10)] := by
  unfold natDigits
  conv_lhs => rw [natDigitsAux]
  rw [if_neg h, natDigitsAux_append]

theorem digitChar_isDigit {r : Nat} (h : r < 10) :
    isDigitChar (digitChar r) = true := by
  interval_cases r <;> decide

theorem digitChar_dval {r : Nat} (h : r < 10) :
    dval (digitChar r) = (r : Int) := by
  interval_cases r <;> decide

theorem natDigits_all_digits (n : Nat) :
    ∀ c ∈ natDigits n, isDigitChar c = true := by
  induction n using Nat.strong_induction_on with
  | _ n ih =>
    by_cases h : n < 10
    · rw [natDigits_lt h]
      intro c hc
      rw [List.mem_singleton] at hc
      subst hc
      exact digitChar_isDigit (Nat.mod_lt n (by omega))
    · rw [natDigits_step h]
      intro c hc
      rw [List.mem_append] at hc
      cases hc with
      | inl hcl => exact ih (n / 10) (by omega) c hcl
      | inr hcr =>
        rw [List.mem_singleton] at hcr
        subst hcr
        exact digitChar_isDigit (Nat.mod_lt n (by omega))

theorem natDigits_ne_nil (n : Nat) : natDigits n ≠ [] := by
  by_cases h : n < 10
  · rw [natDigits_lt h]
    exact List.cons_ne_nil _ _
  · rw [natDigits_step h]
    simp

theorem pval_append (acc : Int) (l1 l2 : List Char) :
    pval acc (l1 ++ l2) = pval (pval acc l1) l2 := by
  unfold pval
  rw [List.foldl_append]

theorem pval_natDigits (n : Nat) : pval 0 (natDigits n) = (n : Int) := by
  induction n using Nat.strong_induction_on with
  | _ n ih =>
    by_cases h : n < 10
    · rw [natDigits_lt h]
      rw [pval_cons]
      simp only [pval, List.foldl_nil]
      rw [digitChar_dval (Nat.mod_lt n (by omega))]
      omega
    · rw [natDigits_step h, pval_append, ih (n / 10) (by omega)]
      rw [pval_cons]
      simp only [pval, List.foldl_nil]
      rw [digitChar_dval (Nat.mod_lt n (by omega))]
      omega


theorem digit_head_not_sign {c : Char} (h : isDigitChar c = true) :
    c ≠ '+' ∧ c ≠ '-' := by
  constructor <;> intro hc <;> subst hc <;> exact absurd h (by decide)

theorem fromStr_digits {cs : List Char} (hne : cs ≠ [])
    (hd : ∀ c ∈ cs, isDigitChar c = true) :
    fromStrRadix10 cs = parsePos 0 cs := by
  match cs with
  | [] => exact absurd rfl hne
  | c :: rest =>
    have hc := hd c (List.mem_cons_self c rest)
    obtain ⟨h1, h2⟩ := digit_head_not_sign hc
    simp only [fromStrRadix10]
    rw [if_neg h1, if_neg h2]

theorem intDisplay_roundtrip {n : Int} (h : InRange n) :
    fromStrRadix10 (intDisplay n).data = .ok n := by
  unfold intDisplay
  by_cases hn : n < 0
  · rw [if_pos hn]
    show fromStrRadix10 ('-' :: natDigits n.natAbs) = .ok n
    simp only [fromStrRadix10]
    rw [if_neg (by decide : ¬ ('-' : Char) = '+')]
    simp only [if_true]
    rw [if_neg (natDigits_ne_nil n.natAbs),
      parseNeg_spec (natDigits_all_digits _) (le_refl 0)
        (by unfold MIN; omega),
      pnval_eq_neg_pval, Int.neg_zero, pval_natDigits]
    have habs : ((n.natAbs : Nat) : Int) = -n := by omega
    rw [habs, Int.neg_neg, if_pos h.1]
  · rw [if_neg hn]
    show fromStrRadix10 (natDigits n.toNat) = .ok n
    rw [fromStr_digits (natDigits_ne_nil _) (natDigits_all_digits _),
      parsePos_spec (natDigits_all_digits _) (le_refl 0)
        (by unfold MAX; omega),
      pval_natDigits]
    have htn : ((n.toNat : Nat) : Int) = n := by omega
    rw [htn, if_pos h.2]

theorem isDigitChar_not_ws {c : Char} (h : isDigitChar c = true) :
    isRustWhitespace c = false := by
  unfold isDigitChar at h
  obtain ⟨h1, h2⟩ := Bool.and_eq_true_iff.mp h
  have h1' := of_decide_eq_true h1
  have h2' := of_decide_eq_true h2
  unfold isRustWhitespace
  cases hc : rustWhitespaceCodes.contains c.toNat
  · rfl
  · exfalso
    have hmem : c.toNat ∈ rustWhitespaceCodes := by simpa using hc
    unfold rustWhitespaceCodes at hmem
    simp only [List.mem_cons, List.not_mem_nil, or_false] at hmem
    omega

theorem intDisplay_no_ws (n : Int) :
    ∀ c ∈ (intDisplay n).data, isRustWhitespace c = false := by
  unfold intDisplay
  by_cases hn : n < 0
  · rw [if_pos hn]
    intro c hc
    have hc' : c ∈ '-' :: natDigits n.natAbs := hc
    rw [List.mem_cons] at hc'
    cases hc' with
    | inl h => subst h; decide
    | inr h => exact isDigitChar_not_ws (natDigits_all_digits _ c h)
  · rw [if_neg hn]
    intro c hc
    exact isDigitChar_not_ws (natDigits_all_digits _ c hc)

/-- C6: for every run of the executable: on success, exactly one line is
printed to standard output, holding the decimal rendering of the sum
with no whitespace anywhere in it (the rendering parses back to the
sum); on any input or parse failure the process exits with a non-zero
status after printing one human-readable diagnostic line to the error
stream, and prints no output line. -/
theorem main_contract (lines : List (Except IoError String)) :
    (∀ n, sum lines = .ok n →
      main lines = ⟨[intDisplay n], [], 0⟩
      ∧ (∀ c ∈ (intDisplay n).data, isRustWhitespace c = false)
      ∧ fromStrRadix10 (intDisplay n).data = .ok n)
    ∧ (∀ e, sum lines = .error e →
      (main lines).exitCode ≠ 0 ∧ (main lines).stdout = []
      ∧ (main lines).stderr.length = 1) := by
  constructor
  · intro n hok
    refine ⟨?_, intDisplay_no_ws n, intDisplay_roundtrip (sum_ok_inRange hok)⟩
    unfold main
    rw [hok]
  · intro e herr
    unfold main
    rw [herr]
    cases e with
    | InputError io => exact ⟨Nat.one_ne_zero, rfl, rfl⟩
    | ParsingError input k => exact ⟨Nat.one_ne_zero, rfl, rfl⟩


/-- C6 (witness): the run on `["20", "22"]` prints exactly the sum line
and exits 0; the run on a failing input stream exits non-zero with no
output line and one diagnostic line. -/
theorem main_contract_witness :
    main [.ok "20", .ok "22"] = ⟨[intDisplay 42], [], 0⟩
    ∧ fromStrRadix10 (intDisplay 42).data = .ok 42
    ∧ (main [.error "Mock Error"]).exitCode ≠ 0
    ∧ (main [.error "Mock Error"]).stdout = []
    ∧ (main [.error "Mock Error"]).stderr.length = 1 := by
  have h1 := (main_contract [.ok "20", .ok "22"]).1 42 (by decide)
  have h2 := (main_contract [.error "Mock Error"]).2
    (.InputError "Mock Error") (by decide)
  exact ⟨h1.1, h1.2.2, h2.1, h2.2.1, h2.2.2⟩

end StdioUtils
